import Mathlib

/-!
Shallow embedding of the mesher crate (packet/chunk encryption-decryption
model and the Mesher routing orchestrator), translated from
`src/mesher/src/packet.rs`, `src/mesher/src/mesher.rs` and
`src/mesher/src/transports.rs`. External collaborators that are not part
of the core source (the asymmetric-crypto provider, the binary codec, the
`fail` module and signed-mode disassembly) are modelled from the spec, as
noted on each definition.
-/

namespace Mesh

/-- Byte strings (`Vec<u8>`, `String` as its UTF-8 bytes, `&[u8]`) are lists
of naturals; a well-formed byte is `< 256` but nothing in the embedded code
depends on that bound except where noted. -/
abbrev Bytes := List Nat

/-- Modelled from the spec (§7) and `transports.rs` `TransportFail`: the
`fail` module of the crate is not under `src/`, so the error kinds are the
ones the spec lists. `Other` carries `Box<dyn Error>` in Rust; the payload
is dropped here so equality stays decidable. `InvalidURL` and the failure
kinds carry their detail strings; `UnregisteredScheme` carries the scheme
as bytes. -/
inductive MesherFail where
  | InvalidPacket
  | InvalidURL (detail : String)
  | UnregisteredScheme (scheme : Bytes)
  | SetupFailure (detail : String)
  | SendFailure (detail : String)
  | ListenFailure (detail : String)
  | ReceiveFailure (detail : String)
  | NoKeys
  | Other
deriving DecidableEq, Repr

/-- Modelled from the spec (§6, crypto-provider collaborator): the public
half of an asymmetric keypair. Keys are identified by a numeral; two keys
are the same key iff they have the same identifier. -/
structure PublicKey where
  id : Nat
deriving DecidableEq, Repr

/-- Modelled from the spec (§6): the secret half of an asymmetric keypair. -/
structure SecretKey where
  id : Nat
deriving DecidableEq, Repr

/-- Modelled from the spec (§6): a secret key can derive its public
counterpart. -/
def SecretKey.pkey (k : SecretKey) : PublicKey := ⟨k.id⟩

/-- Modelled from the spec (§6): asymmetric encryption under a public key.
The ciphertext determines the plaintext together with the key, and only the
matching secret key can recover it; the model realises this by tagging the
plaintext with the key identifier. -/
def PublicKey.encrypt (k : PublicKey) (raw : Bytes) : Bytes := k.id :: raw

/-- Modelled from the spec (§6): asymmetric decryption under a secret key;
fails (`None`) unless the ciphertext was produced under the matching public
key. -/
def SecretKey.decrypt (k : SecretKey) (c : Bytes) : Option Bytes :=
  match c with
  | [] => none
  | i :: rest => if i = k.id then some rest else none

/-- A UTF-8 continuation byte, `0x80 ..= 0xBF`. -/
def isCont (b : Nat) : Bool := decide (0x80 ≤ b ∧ b ≤ 0xBF)

/-- The validity check performed by Rust's `String::from_utf8`
(`Chunk::decrypt_onekey` applies it to the body of a tag-1 chunk):
well-formed UTF-8, rejecting overlong forms, surrogates and code points
above `U+10FFFF`. -/
def validUtf8 : Bytes → Bool
  | [] => true
  | b :: rest =>
    if b ≤ 0x7F then validUtf8 rest
    else if 0xC2 ≤ b ∧ b ≤ 0xDF then
      match rest with
      | c1 :: r => isCont c1 && validUtf8 r
      | [] => false
    else if 0xE0 ≤ b ∧ b ≤ 0xEF then
      match rest with
      | c1 :: c2 :: r =>
        (if b = 0xE0 then decide (0xA0 ≤ c1 ∧ c1 ≤ 0xBF)
         else if b = 0xED then decide (0x80 ≤ c1 ∧ c1 ≤ 0x9F)
         else isCont c1) && isCont c2 && validUtf8 r
      | _ => false
    else if 0xF0 ≤ b ∧ b ≤ 0xF4 then
      match rest with
      | c1 :: c2 :: c3 :: r =>
        (if b = 0xF0 then decide (0x90 ≤ c1 ∧ c1 ≤ 0xBF)
         else if b = 0xF4 then decide (0x80 ≤ c1 ∧ c1 ≤ 0x8F)
         else isCont c1) && isCont c2 && isCont c3 && validUtf8 r
      | _ => false
    else false

/-- `packet.rs` lines 3-9: the atomic routing unit. `Transport` carries a
Rust `String`; it is embedded as its UTF-8 bytes (the `String` type
invariant corresponds to `validUtf8`). -/
inductive Chunk where
  | Message (m : Bytes)
  | Transport (t : Bytes)
  | Encrypted (v : Bytes)
deriving DecidableEq, Repr

/-- `packet.rs` lines 12-28, `Chunk::encrypt`: prepend the tag byte (0 for
`Message`, 1 for `Transport`) and encrypt under the target key;
`Encrypted` bytes pass through unchanged. -/
def Chunk.encrypt (c : Chunk) (key : PublicKey) : Bytes :=
  match c with
  | .Message m => key.encrypt (0 :: m)
  | .Transport t => key.encrypt (1 :: t)
  | .Encrypted v => v

/-- `packet.rs` lines 30-42, `Chunk::decrypt_onekey`: attempt decryption
with one key; require a non-empty body beginning with tag 0 or 1, and for
tag 1 a valid-UTF-8 remainder. Rust's `Result<Chunk, ()>` is embedded as
`Option Chunk`. -/
def Chunk.decrypt_onekey (bytes : Bytes) (key : SecretKey) : Option Chunk :=
  match key.decrypt bytes with
  | none => none
  | some attempt_dec =>
    match attempt_dec with
    | [] => none
    | 0 :: rest => some (.Message rest)
    | 1 :: rest => if validUtf8 rest then some (.Transport rest) else none
    | _ => none

/-- `packet.rs` lines 44-51, `Chunk::decrypt`: try each own key in listed
order, first success wins; if none succeeds the chunk stays
`Encrypted(original bytes)`. -/
def Chunk.decrypt (bytes : Bytes) : List SecretKey → Chunk
  | [] => .Encrypted bytes
  | key :: keys =>
    match Chunk.decrypt_onekey bytes key with
    | some dec => dec
    | none => Chunk.decrypt bytes keys

/-- Modelled from the spec (§6, codec collaborator): a `u64` length in
little-endian bytes, as the fixed length-delimited binary encoding uses.
Faithful for `n < 2^64`. -/
def toLE8 (n : Nat) : Bytes :=
  [n % 256, n / 256 % 256, n / 256 / 256 % 256, n / 256 / 256 / 256 % 256,
   n / 256 / 256 / 256 / 256 % 256, n / 256 / 256 / 256 / 256 / 256 % 256,
   n / 256 / 256 / 256 / 256 / 256 / 256 % 256,
   n / 256 / 256 / 256 / 256 / 256 / 256 / 256 % 256]

/-- Modelled from the spec (§6): read a `u64` length from the head of the
input, returning it with the remaining bytes. -/
def decodeLen : Bytes → Option (Nat × Bytes)
  | b0 :: b1 :: b2 :: b3 :: b4 :: b5 :: b6 :: b7 :: rest =>
    some (b0 + 256 * (b1 + 256 * (b2 + 256 * (b3 + 256 * (b4 + 256 * (b5 +
      256 * (b6 + 256 * b7)))))), rest)
  | _ => none

/-- Modelled from the spec (§6): the body of the encoding of a blob list —
each blob length-delimited, in order. -/
def encBlobs : List Bytes → Bytes
  | [] => []
  | b :: bs => toLE8 b.length ++ b ++ encBlobs bs

/-- Modelled from the spec (§6): `encode(list<blob>) → bytes` — the blob
count followed by each blob length-delimited (the layout bincode uses for
`Vec<Vec<u8>>`). -/
def bincodeSerialize (blobs : List Bytes) : Bytes :=
  toLE8 blobs.length ++ encBlobs blobs

/-- Modelled from the spec (§6): read `n` length-delimited blobs, failing
if the input runs short. -/
def readBlobs : Nat → Bytes → Option (List Bytes × Bytes)
  | 0, bs => some ([], bs)
  | n + 1, bs =>
    match decodeLen bs with
    | none => none
    | some (len, rest) =>
      if len ≤ rest.length then
        match readBlobs n (rest.drop len) with
        | none => none
        | some (blobs, rest2) => some (rest.take len :: blobs, rest2)
      else none

/-- Modelled from the spec (§6): `decode(bytes) → list<blob> | fail` — the
partial inverse of `bincodeSerialize`; fails on malformed framing. -/
def bincodeDeserialize (bs : Bytes) : Option (List Bytes) :=
  match decodeLen bs with
  | none => none
  | some (n, rest) =>
    match readBlobs n rest with
    | none => none
    | some (blobs, rest2) => if rest2 = [] then some blobs else none

/-- `packet.rs` lines 54-57: the build-time packet, an ordered list of
(chunk, recipient public key) pairs. -/
structure Packet where
  chunks : List (Chunk × PublicKey) := []
deriving DecidableEq, Repr

/-- `packet.rs` lines 60-63, `Packet::add_message`. -/
def Packet.add_message (p : Packet) (data : Bytes) (target_pkey : PublicKey) : Packet :=
  ⟨p.chunks ++ [(Chunk.Message data, target_pkey)]⟩

/-- `packet.rs` lines 65-68, `Packet::add_hop`. -/
def Packet.add_hop (p : Packet) (path : Bytes) (node_pkey : PublicKey) : Packet :=
  ⟨p.chunks ++ [(Chunk.Transport path, node_pkey)]⟩

/-- `packet.rs` lines 70-73, `Packet::into_bytes`: encrypt every chunk in
order under its target key and binary-encode the blob list. The modelled
codec is total, so the `Other` failure path of `bincode::serialize` never
fires. -/
def Packet.into_bytes (p : Packet) : Except MesherFail Bytes :=
  .ok (bincodeSerialize (p.chunks.map (fun ck => ck.1.encrypt ck.2)))

/-- `packet.rs` lines 75-79, `Packet::from_bytes`: binary-decode the blob
list (malformed framing is `InvalidPacket`), then decrypt each blob with
the own-key list. -/
def Packet.from_bytes (packet : Bytes) (keys : List SecretKey) :
    Except MesherFail (List Chunk) :=
  match bincodeDeserialize packet with
  | none => .error .InvalidPacket
  | some blobs => .ok (blobs.map (fun c => Chunk.decrypt c keys))

/-- Modelled from the spec (§6, sign/verify): inbound signature
verification of one blob against the allow-listed sender keys. A signed
blob carries its signature as a sender-key identifier prefix; verification
succeeds iff some listed sender key matches, yielding the inner
ciphertext. -/
def verifyAny (senderKeys : List PublicKey) (blob : Bytes) : Option Bytes :=
  match blob with
  | [] => none
  | sid :: inner =>
    if senderKeys.any (fun k => k.id = sid) then some inner else none

/-- Modelled from the spec (§4.2): the per-blob step of signed
disassembly — verify the signature, then decrypt as §4.1 does; a blob
whose signature does not verify, or whose inner ciphertext no own key
decrypts, degrades to `Encrypted(original bytes)`. -/
def signedDecrypt (blob : Bytes) (ownKeys : List SecretKey)
    (senderKeys : List PublicKey) : Chunk :=
  match verifyAny senderKeys blob with
  | none => .Encrypted blob
  | some inner =>
    match Chunk.decrypt inner ownKeys with
    | .Encrypted _ => .Encrypted blob
    | c => c

/-- Modelled from the spec (§4.2): `Packet::from_signed_bytes` is called
from `mesher.rs` but its definition is not under `src/`; per the spec it
performs the identical framing step and the §4.1 decryption plus a
signature check against the sender keys. -/
def Packet.from_signed_bytes (packet : Bytes) (ownKeys : List SecretKey)
    (senderKeys : List PublicKey) : Except MesherFail (List Chunk) :=
  match bincodeDeserialize packet with
  | none => .error .InvalidPacket
  | some blobs => .ok (blobs.map (fun b => signedDecrypt b ownKeys senderKeys))

/-- Modelled from the spec (§8, NoKeys): the operation that picks a
randomly selected own key (outbound signing support, not under `src/`);
`rand` stands for the entropy the selection consumes. On an empty own-key
set it fails with `NoKeys`. -/
def chooseOwnKey (rand : Nat) : List SecretKey → Except MesherFail SecretKey
  | [] => .error .NoKeys
  | k :: ks => .ok ((k :: ks).getD (rand % (ks.length + 1)) k)

/-- `mesher.rs` lines 3-14: a single received message. -/
structure Message where
  contents : Bytes
deriving DecidableEq, Repr

/-- A model backend satisfying the `Transport` contract of `transports.rs`
(`send`, `listen`, `receive`): it buffers inbound packets in `inbox`,
records every `send` in `sent` and every `listen` in `listens`, and the
`*Fail` fields, when set, make the corresponding call report the
corresponding failure (the contract lets every call fail). -/
structure TransportState where
  inbox : List Bytes := []
  sent : List (Bytes × Bytes) := []
  listens : List Bytes := []
  recvFail : Option String := none
  sendFail : Option String := none
  listenFail : Option String := none
deriving DecidableEq, Repr

/-- `Transport::send` on the model backend: record `(path, blob)` unless
the backend is set to fail. -/
def TransportState.send (t : TransportState) (path : Bytes) (blob : Bytes) :
    TransportState × Except MesherFail Unit :=
  match t.sendFail with
  | some s => (t, .error (.SendFailure s))
  | none => ({ t with sent := t.sent ++ [(path, blob)] }, .ok ())

/-- `Transport::listen` on the model backend. -/
def TransportState.listen (t : TransportState) (path : Bytes) :
    TransportState × Except MesherFail Unit :=
  match t.listenFail with
  | some s => (t, .error (.ListenFailure s))
  | none => ({ t with listens := t.listens ++ [path] }, .ok ())

/-- `Transport::receive` on the model backend: a non-blocking drain of the
inbox (empty afterwards), unless the backend is set to fail. -/
def TransportState.receive (t : TransportState) :
    TransportState × Except MesherFail (List Bytes) :=
  match t.recvFail with
  | some s => (t, .error (.ReceiveFailure s))
  | none => ({ t with inbox := [] }, .ok t.inbox)

/-- The scheme → Transport registry (`HashMap<String, Box<dyn Transport>>`
in `mesher.rs` line 21), as an association list with at most one binding
per scheme when built through `insertT`. -/
abbrev Registry := List (Bytes × TransportState)

/-- `HashMap::get_mut` / `get`: first binding for the scheme. -/
def lookupT : Registry → Bytes → Option TransportState
  | [], _ => none
  | (s0, t0) :: rest, s => if s0 = s then some t0 else lookupT rest s

/-- Write back a mutated transport under its scheme (the effect of going
through the `&mut` returned by `get_mut`). -/
def updateT : Registry → Bytes → TransportState → Registry
  | [], _, _ => []
  | (s0, t0) :: rest, s, t =>
    if s0 = s then (s0, t) :: rest else (s0, t0) :: updateT rest s t

/-- `HashMap::insert`: replace the binding for the scheme, or add one. -/
def insertT (reg : Registry) (s : Bytes) (t : TransportState) : Registry :=
  match lookupT reg s with
  | some _ => updateT reg s t
  | none => reg ++ [(s, t)]

/-- `mesher.rs` lines 20-24: the orchestrator state. -/
structure Mesher where
  transports : Registry
  own_skeys : List SecretKey
  sender_pkeys : List PublicKey
deriving DecidableEq, Repr

/-- `mesher.rs` lines 48-54, `Mesher::unsigned`. -/
def Mesher.unsigned (own_skeys : List SecretKey) : Mesher :=
  ⟨[], own_skeys, []⟩

/-- `mesher.rs` lines 32-40, `Mesher::signed`: the `assert!` on a
non-empty sender-key list is embedded as `Option`. -/
def Mesher.signed (own_skeys : List SecretKey) (sender_pkeys : List PublicKey) :
    Option Mesher :=
  if sender_pkeys = [] then none else some ⟨[], own_skeys, sender_pkeys⟩

/-- `mesher.rs` lines 59-62, `Mesher::add_transport`: build a backend for
the scheme and store it, replacing any prior entry; a `SetupFailure` from
the factory is propagated and nothing is stored. `newT` stands for the
result of `T::new(scheme)`. -/
def Mesher.add_transport (m : Mesher) (scheme : Bytes)
    (newT : Except MesherFail TransportState) : Mesher × Except MesherFail Unit :=
  match newT with
  | .error e => (m, .error e)
  | .ok t => ({ m with transports := insertT m.transports scheme t }, .ok ())

/-- Rust `path.splitn(2, ':')` on the byte representation: the piece
before the first colon (byte 58), then the remainder when a colon exists.
Note the result is never empty. -/
def splitn2 (path : Bytes) : List Bytes :=
  if path.contains 58 then
    [path.takeWhile (fun b => b ≠ 58), (path.dropWhile (fun b => b ≠ 58)).drop 1]
  else [path]

/-- The scheme of a path: the bytes before the first colon (the whole path
when it has no colon). -/
def schemeOf (path : Bytes) : Bytes := path.takeWhile (fun b => b ≠ 58)

/-- `mesher.rs` lines 67-77, `Mesher::get_transport_for_path`: take
`splitn(2, ':').next()` as the scheme — `ok_or` the `InvalidURL` error —
then look it up in the registry, `ok_or` `UnregisteredScheme`. Instead of
a `&mut` borrow it returns the scheme together with the transport found
under it; callers write the mutated transport back with `updateT`. -/
def Mesher.get_transport_for_path (m : Mesher) (path : Bytes) :
    Except MesherFail (Bytes × TransportState) :=
  match (splitn2 path).head? with
  | none => .error (.InvalidURL "no colon-delimited scheme segment")
  | some scheme =>
    match lookupT m.transports scheme with
    | none => .error (.UnregisteredScheme scheme)
    | some t => .ok (scheme, t)

/-- `mesher.rs` lines 82-84, `Mesher::listen_on`: resolve the transport by
the path's scheme and delegate `listen(path)` to it. -/
def Mesher.listen_on (m : Mesher) (path : Bytes) : Mesher × Except MesherFail Unit :=
  match m.get_transport_for_path path with
  | .error e => (m, .error e)
  | .ok (scheme, t) =>
    let st := t.listen path
    ({ m with transports := updateT m.transports scheme st.1 }, st.2)

/-- `mesher.rs` lines 117-121, `Mesher::bounce`: resolve the transport for
the path and send the given bytes along it. -/
def Mesher.bounce (m : Mesher) (packet : Bytes) (path : Bytes) :
    Mesher × Except MesherFail Unit :=
  match m.get_transport_for_path path with
  | .error e => (m, .error e)
  | .ok (scheme, t) =>
    let st := t.send path packet
    ({ m with transports := updateT m.transports scheme st.1 }, st.2)

/-- `mesher.rs` lines 94-98: disassemble a raw packet — unsigned mode uses
`from_bytes`, signed mode (non-empty `sender_pkeys`) uses
`from_signed_bytes`. -/
def Mesher.disassemble (m : Mesher) (pkt : Bytes) : Except MesherFail (List Chunk) :=
  if m.sender_pkeys = [] then Packet.from_bytes pkt m.own_skeys
  else Packet.from_signed_bytes pkt m.own_skeys m.sender_pkeys

/-- `mesher.rs` lines 99-106: the chunk loop of `process_packet` —
`Message` is surfaced, `Transport(to)` bounces the original raw `pkt`
(aborting on failure), `Encrypted` is discarded. -/
def processChunks (m : Mesher) (pkt : Bytes) :
    List Chunk → List Message → Mesher × Except MesherFail (List Message)
  | [], acc => (m, .ok acc)
  | c :: rest, acc =>
    match c with
    | .Message mm => processChunks m pkt rest (acc ++ [⟨mm⟩])
    | .Transport dest =>
      let st := m.bounce pkt dest
      match st.2 with
      | .error e => (st.1, .error e)
      | .ok _ => processChunks st.1 pkt rest acc
    | .Encrypted _ => processChunks m pkt rest acc

/-- `mesher.rs` lines 93-108, `Mesher::process_packet`. -/
def Mesher.process_packet (m : Mesher) (pkt : Bytes) :
    Mesher × Except MesherFail (List Message) :=
  match m.disassemble pkt with
  | .error e => (m, .error e)
  | .ok dis => processChunks m pkt dis []

/-- `mesher.rs` lines 112-114, `Mesher::launch`: serialize and hand the
bytes to the first hop's transport; the packet is not locally processed. -/
def Mesher.launch (m : Mesher) (packet : Packet) (first_hop : Bytes) :
    Mesher × Except MesherFail Unit :=
  match packet.into_bytes with
  | .error e => (m, .error e)
  | .ok bytes => m.bounce bytes first_hop

/-- `mesher.rs` lines 126-129: the drain loop of `recv` — call `receive`
on every registered transport in registry order, aborting at the first
failure, concatenating the drained packets. -/
def drainList : Registry → Registry × Except MesherFail (List Bytes)
  | [] => ([], .ok [])
  | (s, t) :: rest =>
    let st := t.receive
    match st.2 with
    | .error e => ((s, st.1) :: rest, .error e)
    | .ok ps =>
      let dr := drainList rest
      match dr.2 with
      | .error e => ((s, st.1) :: dr.1, .error e)
      | .ok ps2 => ((s, st.1) :: dr.1, .ok (ps ++ ps2))

/-- The drain phase of `recv` on the whole Mesher. -/
def Mesher.drainAll (m : Mesher) : Mesher × Except MesherFail (List Bytes) :=
  let dr := drainList m.transports
  ({ m with transports := dr.1 }, dr.2)

/-- `mesher.rs` lines 130-133: the processing loop of `recv` — process
each drained packet in order, aborting at the first failure and discarding
the messages accumulated so far. -/
def processPackets (m : Mesher) : List Bytes → List Message →
    Mesher × Except MesherFail (List Message)
  | [], acc => (m, .ok acc)
  | p :: rest, acc =>
    let st := m.process_packet p
    match st.2 with
    | .error e => (st.1, .error e)
    | .ok msgs => processPackets st.1 rest (acc ++ msgs)

/-- `mesher.rs` lines 124-135, `Mesher::recv`: drain every transport into
a local packet list, then process every packet. -/
def Mesher.recv (m : Mesher) : Mesher × Except MesherFail (List Message) :=
  let dr := m.drainAll
  match dr.2 with
  | .error e => (dr.1, .error e)
  | .ok packets => processPackets dr.1 packets []

/-- A builder call on a `Packet`: the two chainable builder operations of
`packet.rs`. -/
inductive BuildOp where
  | message (data : Bytes) (key : PublicKey)
  | hop (path : Bytes) (key : PublicKey)
deriving DecidableEq, Repr

/-- Apply one builder call. -/
def applyOp (p : Packet) : BuildOp → Packet
  | .message d k => p.add_message d k
  | .hop path k => p.add_hop path k

/-- The packet built from a chain of builder calls starting from
`Packet::default()`. -/
def buildPacket (ops : List BuildOp) : Packet := ops.foldl applyOp ⟨[]⟩

/-- The chunk a builder call appends. -/
def opChunk : BuildOp → Chunk
  | .message d _ => .Message d
  | .hop path _ => .Transport path

/-- The recipient key of a builder call. -/
def opKey : BuildOp → PublicKey
  | .message _ k => k
  | .hop _ k => k

/-- The payload a `Message` chunk contributes, `none` for the others. -/
def chunkMsg : Chunk → Option Bytes
  | .Message m => some m
  | _ => none

/-! ## Helper lemmas -/

theorem decrypt_of_all_fail (b : Bytes) (keys : List SecretKey)
    (h : ∀ k ∈ keys, Chunk.decrypt_onekey b k = none) :
    Chunk.decrypt b keys = .Encrypted b := by
  induction keys with
  | nil => rfl
  | cons k ks ih =>
    simp only [Chunk.decrypt]
    rw [h k (by simp)]
    exact ih (fun k2 hk2 => h k2 (by simp [hk2]))

theorem decrypt_onekey_not_encrypted (b : Bytes) (k : SecretKey) (c : Chunk)
    (h : Chunk.decrypt_onekey b k = some c) : ∀ v, c ≠ .Encrypted v := by
  intro v
  unfold Chunk.decrypt_onekey at h
  cases hd : k.decrypt b with
  | none => rw [hd] at h; exact absurd h (by simp)
  | some p =>
    rw [hd] at h
    rcases p with _ | ⟨b0, rest⟩
    · exact absurd h (by simp)
    · rcases b0 with _ | _ | b0
      · simp only [Option.some.injEq] at h
        simp [← h]
      · by_cases hv : validUtf8 rest
        · simp only [hv, if_true, Option.some.injEq] at h
          simp [← h]
        · simp [hv] at h
      · exact absurd h (by simp)

theorem decrypt_encrypted_inv (b : Bytes) (keys : List SecretKey) (v : Bytes)
    (h : Chunk.decrypt b keys = .Encrypted v) : v = b := by
  induction keys with
  | nil =>
    simp only [Chunk.decrypt, Chunk.Encrypted.injEq] at h
    exact h.symm
  | cons k ks ih =>
    simp only [Chunk.decrypt] at h
    cases hk : Chunk.decrypt_onekey b k with
    | none => rw [hk] at h; exact ih h
    | some c =>
      rw [hk] at h
      exact absurd h (decrypt_onekey_not_encrypted b k c hk v)

theorem splitn2_ne_nil (path : Bytes) : (splitn2 path).head? = some (schemeOf path) := by
  unfold splitn2 schemeOf
  split
  · rfl
  · rename_i hc
    have hall : ∀ a ∈ path, a ≠ 58 := by
      intro a ha h58
      apply hc
      subst h58
      simpa [List.contains] using List.elem_iff.mpr ha
    have : List.takeWhile (fun b => !decide (b = 58)) path = path := by
      rw [List.takeWhile_eq_self_iff]
      intro a ha
      simp [hall a ha]
    simp [this]

theorem get_transport_eq (m : Mesher) (path : Bytes) :
    m.get_transport_for_path path =
      (match lookupT m.transports (schemeOf path) with
       | none => .error (.UnregisteredScheme (schemeOf path))
       | some t => .ok (schemeOf path, t)) := by
  unfold Mesher.get_transport_for_path
  rw [splitn2_ne_nil]

/-! ## Claims -/

/-- C2: for every ciphertext blob and every list of own secret keys, chunk
decryption tries each key in listed order and returns the result of the
first key whose one-key decryption succeeds; one-key decryption succeeds
with chunk `c` exactly when asymmetric decryption succeeds with a
non-empty plaintext beginning with tag byte 0 (then `c` is `Message` of
the remainder) or tag byte 1 with a valid-UTF-8 remainder (then `c` is
`Transport` of it); any key failing any check is skipped, and if no key
succeeds the result is `Encrypted(original input bytes)`. -/
theorem chunk_decrypt_first_success (bytes : Bytes) (keys : List SecretKey) :
    Chunk.decrypt bytes keys =
      (match keys.findSome? (fun k => Chunk.decrypt_onekey bytes k) with
       | some c => c
       | none => Chunk.Encrypted bytes) ∧
    ∀ (k : SecretKey) (c : Chunk), Chunk.decrypt_onekey bytes k = some c ↔
      ∃ p, k.decrypt bytes = some p ∧ p ≠ [] ∧
        ((p.head? = some 0 ∧ c = Chunk.Message (p.drop 1)) ∨
         (p.head? = some 1 ∧ validUtf8 (p.drop 1) = true ∧
          c = Chunk.Transport (p.drop 1))) := by
  constructor
  · induction keys with
    | nil => rfl
    | cons k ks ih =>
      simp only [Chunk.decrypt, List.findSome?_cons]
      cases h : Chunk.decrypt_onekey bytes k <;> simp [h, ih]
  · intro k c
    constructor
    · intro h
      unfold Chunk.decrypt_onekey at h
      cases hd : k.decrypt bytes with
      | none => rw [hd] at h; exact absurd h (by simp)
      | some p =>
        rw [hd] at h
        refine ⟨p, rfl, ?_, ?_⟩
        · rcases p with _ | ⟨b, rest⟩
          · exact absurd h (by simp)
          · simp
        · rcases p with _ | ⟨b, rest⟩
          · exact absurd h (by simp)
          · rcases b with _ | _ | b
            · left
              simp only [Option.some.injEq] at h
              simp [← h]
            · right
              by_cases hv : validUtf8 rest
              · simp only [hv, if_true, Option.some.injEq] at h
                simp [← h, hv]
              · simp [hv] at h
            · exact absurd h (by simp)
    · rintro ⟨p, hp, hne, hcase⟩
      unfold Chunk.decrypt_onekey
      rw [hp]
      rcases p with _ | ⟨b, rest⟩
      · exact absurd rfl hne
      · rcases hcase with ⟨hh, hc⟩ | ⟨hh, hv, hc⟩
        · simp only [List.head?_cons, Option.some.injEq] at hh
          subst hh
          simp at hc
          simp [hc]
        · simp only [List.head?_cons, Option.some.injEq] at hh
          subst hh
          simp at hc hv
          simp [hc, hv]

/-- C2 witness: on a concrete blob encrypted for key 1, the second listed
key decrypts it after the first fails, yielding the `Message` chunk. -/
theorem chunk_decrypt_first_success_witness :
    Chunk.decrypt [1, 0, 7] [⟨2⟩, ⟨1⟩] = Chunk.Message [7] ∧
    Chunk.decrypt_onekey [1, 0, 7] (⟨1⟩ : SecretKey) = some (Chunk.Message [7]) := by
  have h := chunk_decrypt_first_success [1, 0, 7] [⟨2⟩, ⟨1⟩]
  refine ⟨?_, ?_⟩
  · rw [h.1]
    rfl
  · exact (h.2 ⟨1⟩ (Chunk.Message [7])).mpr ⟨[0, 7], rfl, by simp, Or.inl ⟨rfl, rfl⟩⟩

/-- C6: for every input to `from_bytes`, a framing that cannot be
binary-decoded fails with `InvalidPacket`; a framing that parses yields
one chunk per blob via §4.1 decryption, and each blob on which every key
fails resolves to `Encrypted` — never an error and never a spurious
`Message`/`Transport` chunk. -/
theorem from_bytes_error_handling (bytes : Bytes) (keys : List SecretKey) :
    (bincodeDeserialize bytes = none →
      Packet.from_bytes bytes keys = .error .InvalidPacket) ∧
    (∀ blobs, bincodeDeserialize bytes = some blobs →
      Packet.from_bytes bytes keys =
        .ok (blobs.map (fun b => Chunk.decrypt b keys)) ∧
      ∀ b ∈ blobs, (∀ k ∈ keys, Chunk.decrypt_onekey b k = none) →
        Chunk.decrypt b keys = .Encrypted b) := by
  constructor
  · intro h
    unfold Packet.from_bytes
    rw [h]
  · intro blobs h
    constructor
    · unfold Packet.from_bytes
      rw [h]
    · intro b _ hall
      exact decrypt_of_all_fail b keys hall

/-- C6 witness: the empty byte string has unparsable framing and fails
with `InvalidPacket`; a parsable framing around an undecryptable blob
yields exactly an `Encrypted` chunk. -/
theorem from_bytes_error_handling_witness :
    Packet.from_bytes [] [] = .error .InvalidPacket ∧
    Packet.from_bytes (bincodeSerialize [[5]]) [⟨1⟩] =
      .ok [Chunk.Encrypted [5]] := by
  refine ⟨(from_bytes_error_handling [] []).1 (by rfl), ?_⟩
  have h := ((from_bytes_error_handling (bincodeSerialize [[5]]) [⟨1⟩]).2 [[5]]
    (by rfl)).1
  rw [h]
  rfl

/-- C8 counterexample to the claim as stated: `Chunk::decrypt` — an
operation cited by the claim as requiring the Mesher's own keys — invoked
with the empty own-key set does not fail with `NoKeys` (it cannot fail at
all): it resolves the chunk to `Encrypted`, and `from_bytes` with an
empty own-key set returns `Ok`, not the `NoKeys` error. -/
theorem decrypt_empty_keys_no_error :
    Chunk.decrypt [0, 1, 2] [] = Chunk.Encrypted [0, 1, 2] ∧
    Packet.from_bytes (bincodeSerialize [[5]]) [] = .ok [Chunk.Encrypted [5]] := by
  exact ⟨rfl, rfl⟩

/-- C8 amended: the operation that requires a randomly selected own key
(outbound signing, modelled from the spec) fails with `NoKeys` on an
empty own-key set; chunk decryption, which merely tries every own key in
order, does not fail on an empty own-key set but resolves every chunk to
`Encrypted(original bytes)`. -/
theorem noKeys_on_empty_key_set :
    (∀ rand : Nat, chooseOwnKey rand [] = .error .NoKeys) ∧
    (∀ bs : Bytes, Chunk.decrypt bs [] = .Encrypted bs) := by
  exact ⟨fun _ => rfl, fun _ => rfl⟩

/-- C9: signed disassembly performs the same framing step as `from_bytes`
(unparsable framing is the same `InvalidPacket` error), then per blob a
signature check against the sender keys followed by the same per-chunk
decryption; a blob whose signature does not verify against any listed
sender key degrades to `Encrypted(original bytes)` exactly as an
undecryptable blob would, never a distinguishable error. -/
theorem from_signed_bytes_degrades (bytes : Bytes) (ownKeys : List SecretKey)
    (senderKeys : List PublicKey) :
    (bincodeDeserialize bytes = none →
      Packet.from_signed_bytes bytes ownKeys senderKeys = .error .InvalidPacket ∧
      Packet.from_bytes bytes ownKeys = .error .InvalidPacket) ∧
    (∀ blobs, bincodeDeserialize bytes = some blobs →
      Packet.from_signed_bytes bytes ownKeys senderKeys =
        .ok (blobs.map (fun b => signedDecrypt b ownKeys senderKeys))) ∧
    (∀ b, verifyAny senderKeys b = none →
      signedDecrypt b ownKeys senderKeys = .Encrypted b) ∧
    (∀ b inner, verifyAny senderKeys b = some inner →
      Chunk.decrypt inner ownKeys = .Encrypted inner →
      signedDecrypt b ownKeys senderKeys = .Encrypted b) ∧
    (∀ b inner, verifyAny senderKeys b = some inner →
      Chunk.decrypt inner ownKeys ≠ .Encrypted inner →
      signedDecrypt b ownKeys senderKeys = Chunk.decrypt inner ownKeys) := by
  refine ⟨?_, ?_, ?_, ?_, ?_⟩
  · intro h
    unfold Packet.from_signed_bytes Packet.from_bytes
    rw [h]
    exact ⟨rfl, rfl⟩
  · intro blobs h
    unfold Packet.from_signed_bytes
    rw [h]
  · intro b h
    simp [signedDecrypt, h]
  · intro b inner hv hd
    simp [signedDecrypt, hv, hd]
  · intro b inner hv hd
    simp only [signedDecrypt, hv]
    cases hc : Chunk.decrypt inner ownKeys with
    | Message m => rfl
    | Transport t => rfl
    | Encrypted v =>
      exact absurd (decrypt_encrypted_inv inner ownKeys v hc ▸ hc) hd

/-- C9 witness: on a concrete signed packet — framing failure, a verified
blob decrypting to a `Message`, and a blob whose signature does not verify
degrading to `Encrypted`. -/
theorem from_signed_bytes_degrades_witness :
    Packet.from_signed_bytes [] [⟨1⟩] [⟨9⟩] = .error .InvalidPacket ∧
    Packet.from_signed_bytes (bincodeSerialize [[9, 1, 0, 7]]) [⟨1⟩] [⟨9⟩] =
      .ok [Chunk.Message [7]] ∧
    signedDecrypt [8, 1, 0, 7] [⟨1⟩] [⟨9⟩] = .Encrypted [8, 1, 0, 7] := by
  refine ⟨((from_signed_bytes_degrades [] [⟨1⟩] [⟨9⟩]).1 (by rfl)).1, ?_, ?_⟩
  · have h := (from_signed_bytes_degrades (bincodeSerialize [[9, 1, 0, 7]])
      [⟨1⟩] [⟨9⟩]).2.1 [[9, 1, 0, 7]] (by rfl)
    rw [h]
    rfl
  · exact (from_signed_bytes_degrades [8, 1, 0, 7] [⟨1⟩] [⟨9⟩]).2.2.1
      [8, 1, 0, 7] (by rfl)

/-- C7 (code bug): `listen_on` on the bytes of `"nocolon"` with no
registered transport fails with `UnregisteredScheme("nocolon")`, not
`InvalidURL` as specified: `splitn(2, ':').next()` is `Some` for every
input, so the `InvalidURL` branch of `get_transport_for_path` is
unreachable — shown for every mesher and path in the second conjunct. -/
theorem listen_on_nocolon_unregistered :
    ((Mesher.unsigned []).listen_on [110, 111, 99, 111, 108, 111, 110]).2 =
      .error (.UnregisteredScheme [110, 111, 99, 111, 108, 111, 110]) ∧
    ∀ (m : Mesher) (path : Bytes),
      m.get_transport_for_path path =
          .error (.UnregisteredScheme (schemeOf path)) ∨
      ∃ t, m.get_transport_for_path path = .ok (schemeOf path, t) := by
  constructor
  · rfl
  · intro m path
    rw [get_transport_eq]
    cases hl : lookupT m.transports (schemeOf path) with
    | none => exact Or.inl rfl
    | some t => exact Or.inr ⟨t, rfl⟩

theorem buildPacket_chunks_aux (ops : List BuildOp) :
    ∀ p : Packet, (ops.foldl applyOp p).chunks =
      p.chunks ++ ops.map (fun op => (opChunk op, opKey op)) := by
  induction ops with
  | nil => intro p; simp
  | cons op rest ih =>
    intro p
    rw [List.foldl_cons, ih]
    cases op <;> simp [applyOp, Packet.add_message, Packet.add_hop, opChunk, opKey]

theorem buildPacket_chunks (ops : List BuildOp) :
    (buildPacket ops).chunks = ops.map (fun op => (opChunk op, opKey op)) := by
  rw [buildPacket, buildPacket_chunks_aux]
  rfl

theorem processChunks_ok_messages (chunks : List Chunk) :
    ∀ (m : Mesher) (pkt : Bytes) (acc : List Message) (m2 : Mesher)
      (msgs : List Message),
      processChunks m pkt chunks acc = (m2, .ok msgs) →
      msgs = acc ++ (chunks.filterMap chunkMsg).map Message.mk := by
  induction chunks with
  | nil =>
    intro m pkt acc m2 msgs h
    simp only [processChunks, Prod.mk.injEq] at h
    simp [← h.2.symm]
    exact (Except.ok.inj h.2).symm
  | cons c rest ih =>
    intro m pkt acc m2 msgs h
    cases c with
    | Message mm =>
      simp only [processChunks] at h
      rw [ih _ _ _ _ _ h]
      simp [chunkMsg]
    | Transport dest =>
      simp only [processChunks] at h
      cases hb : (m.bounce pkt dest).2 with
      | error e =>
        rw [hb] at h
        exact absurd (congrArg Prod.snd h) (by simp)
      | ok u =>
        rw [hb] at h
        rw [ih _ _ _ _ _ h]
        simp [chunkMsg]
    | Encrypted v =>
      simp only [processChunks] at h
      rw [ih _ _ _ _ _ h]
      simp [chunkMsg]

/-- C4: an `Encrypted` chunk is never reported as a message — the builder
operations `add_message`/`add_hop` never put an `Encrypted` chunk in a
packet, and when `process_packet` succeeds its output messages are exactly
the payloads of the `Message` chunks of the disassembly, in order:
`Encrypted` chunks are silently discarded. -/
theorem encrypted_never_surfaced :
    (∀ (ops : List BuildOp) (c : Chunk) (k : PublicKey),
      (c, k) ∈ (buildPacket ops).chunks → ∀ v, c ≠ .Encrypted v) ∧
    (∀ (m : Mesher) (pkt : Bytes) (m2 : Mesher) (msgs : List Message)
      (chunks : List Chunk),
      m.process_packet pkt = (m2, .ok msgs) →
      m.disassemble pkt = .ok chunks →
      msgs = (chunks.filterMap chunkMsg).map Message.mk) := by
  constructor
  · intro ops c k hmem v
    rw [buildPacket_chunks] at hmem
    rcases List.mem_map.mp hmem with ⟨op, _, heq⟩
    have hc : c = opChunk op := by
      have := congrArg Prod.fst heq
      simpa using this.symm
    cases op <;> simp [hc, opChunk]
  · intro m pkt m2 msgs chunks hp hd
    unfold Mesher.process_packet at hp
    rw [hd] at hp
    simpa using processChunks_ok_messages chunks m pkt [] m2 msgs hp

/-- C4 witness: a concrete built packet holds no `Encrypted` chunk, and a
concrete `process_packet` run surfaces exactly its `Message` chunk while
discarding the `Encrypted` one. -/
theorem encrypted_never_surfaced_witness :
    ((Chunk.Message [7], (⟨1⟩ : PublicKey)) ∈
        (buildPacket [BuildOp.message [7] ⟨1⟩]).chunks ∧
      Chunk.Message [7] ≠ Chunk.Encrypted []) ∧
    (Mesher.mk [] [⟨1⟩] []).process_packet (bincodeSerialize [[1, 0, 7], [9]]) =
      (Mesher.mk [] [⟨1⟩] [], .ok [Message.mk [7]]) ∧
    ([Message.mk [7]] : List Message) =
      (([Chunk.Message [7], Chunk.Encrypted [9]].filterMap chunkMsg).map
        Message.mk) := by
  refine ⟨⟨by decide, ?_⟩, by rfl, ?_⟩
  · exact encrypted_never_surfaced.1 [BuildOp.message [7] ⟨1⟩]
      (Chunk.Message [7]) ⟨1⟩ (by decide) []
  · exact encrypted_never_surfaced.2 (Mesher.mk [] [⟨1⟩] [])
      (bincodeSerialize [[1, 0, 7], [9]]) (Mesher.mk [] [⟨1⟩] [])
      [Message.mk [7]] [Chunk.Message [7], Chunk.Encrypted [9]]
      (by rfl) (by rfl)

theorem lookupT_updateT_same (reg : Registry) (s : Bytes) (t : TransportState)
    (h : lookupT reg s = some t) :
    ∀ s', lookupT (updateT reg s t) s' = lookupT reg s' := by
  induction reg with
  | nil => intro s'; rfl
  | cons p rest ih =>
    intro s'
    obtain ⟨s0, t0⟩ := p
    by_cases h0 : s0 = s
    · subst h0
      simp only [lookupT, if_pos rfl] at h
      simp only [updateT, if_pos rfl, lookupT]
      rw [Option.some.inj h]
    · simp only [lookupT, if_neg h0] at h
      simp only [updateT, if_neg h0, lookupT]
      by_cases h1 : s0 = s' <;> simp [h1, ih h]

theorem lookupT_updateT_self (reg : Registry) (s : Bytes) (t t0 : TransportState)
    (h : lookupT reg s = some t0) :
    lookupT (updateT reg s t) s = some t := by
  induction reg with
  | nil => exact absurd h (by simp [lookupT])
  | cons p rest ih =>
    obtain ⟨s0, t1⟩ := p
    by_cases h0 : s0 = s
    · subst h0
      simp [updateT, lookupT]
    · simp only [lookupT, if_neg h0] at h
      simp only [updateT, if_neg h0, lookupT, if_neg h0]
      exact ih h

theorem lookupT_updateT_ne (reg : Registry) (s : Bytes) (t : TransportState)
    (s' : Bytes) (h : s' ≠ s) :
    lookupT (updateT reg s t) s' = lookupT reg s' := by
  induction reg with
  | nil => rfl
  | cons p rest ih =>
    obtain ⟨s0, t0⟩ := p
    by_cases h0 : s0 = s
    · subst h0
      simp only [updateT, if_pos rfl, lookupT]
      rw [if_neg (fun hc => h hc.symm), if_neg (fun hc => h hc.symm)]
    · simp only [updateT, if_neg h0, lookupT]
      by_cases h1 : s0 = s' <;> simp [h1, ih]

theorem isSome_lookupT_updateT (reg : Registry) (s : Bytes) (t : TransportState)
    (s' : Bytes) :
    (lookupT (updateT reg s t) s').isSome = (lookupT reg s').isSome := by
  induction reg with
  | nil => rfl
  | cons p rest ih =>
    obtain ⟨s0, t0⟩ := p
    by_cases h0 : s0 = s
    · subst h0
      simp only [updateT, if_pos rfl, lookupT]
      by_cases h1 : s0 = s' <;> simp [h1]
    · simp only [updateT, if_neg h0, lookupT]
      by_cases h1 : s0 = s' <;> simp [h1, ih]

theorem get_transport_ok (m : Mesher) (path scheme : Bytes) (t : TransportState)
    (h : m.get_transport_for_path path = .ok (scheme, t)) :
    scheme = schemeOf path ∧ lookupT m.transports (schemeOf path) = some t := by
  rw [get_transport_eq] at h
  cases hl : lookupT m.transports (schemeOf path) with
  | none => simp [hl] at h
  | some t1 =>
    simp only [hl, Except.ok.injEq, Prod.mk.injEq] at h
    exact ⟨h.1.symm, congrArg some h.2⟩

theorem send_cases (t : TransportState) (path blob : Bytes) :
    (t.sendFail = none ∧
      t.send path blob = ({ t with sent := t.sent ++ [(path, blob)] }, .ok ())) ∨
    (∃ str, t.sendFail = some str ∧
      t.send path blob = (t, .error (.SendFailure str))) := by
  obtain ⟨inb, snt, lst, rf, sf, lf⟩ := t
  cases sf with
  | none => exact Or.inl ⟨rfl, rfl⟩
  | some str => exact Or.inr ⟨str, rfl, rfl⟩

theorem bounce_forward (m : Mesher) (pkt path : Bytes) (m2 : Mesher)
    (r : Except MesherFail Unit) (h : m.bounce pkt path = (m2, r)) :
    (∀ s t, lookupT m.transports s = some t →
      ∃ t2, lookupT m2.transports s = some t2 ∧ t2.inbox = t.inbox ∧
        (t2.sent = t.sent ∨
          (s = schemeOf path ∧ t2.sent = t.sent ++ [(path, pkt)]))) ∧
    (∀ s, (lookupT m2.transports s).isSome = (lookupT m.transports s).isSome) := by
  unfold Mesher.bounce at h
  cases hg : m.get_transport_for_path path with
  | error e =>
    simp only [hg] at h
    injection h with h1 h2
    subst h1
    exact ⟨fun s t hl => ⟨t, hl, rfl, Or.inl rfl⟩, fun s => rfl⟩
  | ok st =>
    obtain ⟨scheme, t0⟩ := st
    simp only [hg] at h
    obtain ⟨hs, hl0⟩ := get_transport_ok m path scheme t0 hg
    subst hs
    rcases send_cases t0 path pkt with ⟨hf, hsend⟩ | ⟨str, hf, hsend⟩
    · rw [hsend] at h
      injection h with h1 h2
      subst h1
      constructor
      · intro s t hl
        by_cases hss : s = schemeOf path
        · subst hss
          have ht : t0 = t := by rw [hl0] at hl; exact Option.some.inj hl
          subst ht
          exact ⟨{ t0 with sent := t0.sent ++ [(path, pkt)] },
            lookupT_updateT_self m.transports (schemeOf path) _ t0 hl0,
            rfl, Or.inr ⟨rfl, rfl⟩⟩
        · refine ⟨t, ?_, rfl, Or.inl rfl⟩
          rw [lookupT_updateT_ne m.transports (schemeOf path) _ s hss]
          exact hl
      · intro s
        exact isSome_lookupT_updateT m.transports (schemeOf path) _ s
    · rw [hsend] at h
      injection h with h1 h2
      subst h1
      constructor
      · intro s t hl
        refine ⟨t, ?_, rfl, Or.inl rfl⟩
        rw [lookupT_updateT_same m.transports (schemeOf path) t0 hl0 s]
        exact hl
      · intro s
        exact isSome_lookupT_updateT m.transports (schemeOf path) t0 s

theorem bounce_ok_sends (m : Mesher) (pkt path : Bytes) (m2 : Mesher)
    (u : Unit) (h : m.bounce pkt path = (m2, .ok u)) :
    ∃ t, lookupT m.transports (schemeOf path) = some t ∧
      lookupT m2.transports (schemeOf path) =
        some { t with sent := t.sent ++ [(path, pkt)] } := by
  unfold Mesher.bounce at h
  cases hg : m.get_transport_for_path path with
  | error e =>
    simp only [hg] at h
    exact absurd (congrArg Prod.snd h) (by simp)
  | ok st =>
    obtain ⟨scheme, t0⟩ := st
    simp only [hg] at h
    obtain ⟨hs, hl0⟩ := get_transport_ok m path scheme t0 hg
    subst hs
    rcases send_cases t0 path pkt with ⟨hf, hsend⟩ | ⟨str, hf, hsend⟩
    · rw [hsend] at h
      injection h with h1 h2
      subst h1
      exact ⟨t0, hl0, lookupT_updateT_self m.transports (schemeOf path) _ t0 hl0⟩
    · rw [hsend] at h
      exact absurd (congrArg Prod.snd h) (by simp)

theorem processChunks_state (chunks : List Chunk) :
    ∀ (m : Mesher) (pkt : Bytes) (acc : List Message) (m2 : Mesher)
      (r : Except MesherFail (List Message)),
      processChunks m pkt chunks acc = (m2, r) →
      (∀ s t, lookupT m.transports s = some t →
        ∃ t2, lookupT m2.transports s = some t2 ∧ t2.inbox = t.inbox ∧
          ∃ ext, t2.sent = t.sent ++ ext ∧
            ∀ e ∈ ext, e.2 = pkt ∧ Chunk.Transport e.1 ∈ chunks) ∧
      (∀ s, (lookupT m2.transports s).isSome = (lookupT m.transports s).isSome) ∧
      (∀ msgs, r = .ok msgs → ∀ dest, Chunk.Transport dest ∈ chunks →
        ∃ t2, lookupT m2.transports (schemeOf dest) = some t2 ∧
          (dest, pkt) ∈ t2.sent) := by
  induction chunks with
  | nil =>
    intro m pkt acc m2 r h
    simp only [processChunks] at h
    injection h with h1 h2
    subst h1
    refine ⟨fun s t hl => ⟨t, hl, rfl, [], by simp, by simp⟩, fun s => rfl, ?_⟩
    intro msgs _ dest hdest
    exact absurd hdest (by simp)
  | cons c rest ih =>
    intro m pkt acc m2 r h
    cases c with
    | Message mm =>
      simp only [processChunks] at h
      obtain ⟨hrel, hdom, hok⟩ := ih m pkt (acc ++ [⟨mm⟩]) m2 r h
      refine ⟨?_, hdom, ?_⟩
      · intro s t hl
        obtain ⟨t2, h1, h2, ext, h3, h4⟩ := hrel s t hl
        exact ⟨t2, h1, h2, ext, h3,
          fun e he => ⟨(h4 e he).1, List.mem_cons_of_mem _ (h4 e he).2⟩⟩
      · intro msgs hr dest hdest
        rcases List.mem_cons.mp hdest with heq | hmem
        · exact absurd heq (by simp)
        · exact hok msgs hr dest hmem
    | Encrypted v =>
      simp only [processChunks] at h
      obtain ⟨hrel, hdom, hok⟩ := ih m pkt acc m2 r h
      refine ⟨?_, hdom, ?_⟩
      · intro s t hl
        obtain ⟨t2, h1, h2, ext, h3, h4⟩ := hrel s t hl
        exact ⟨t2, h1, h2, ext, h3,
          fun e he => ⟨(h4 e he).1, List.mem_cons_of_mem _ (h4 e he).2⟩⟩
      · intro msgs hr dest hdest
        rcases List.mem_cons.mp hdest with heq | hmem
        · exact absurd heq (by simp)
        · exact hok msgs hr dest hmem
    | Transport dest0 =>
      simp only [processChunks] at h
      have hbpair : m.bounce pkt dest0 = ((m.bounce pkt dest0).1, (m.bounce pkt dest0).2) := rfl
      obtain ⟨hbrel, hbdom⟩ := bounce_forward m pkt dest0 (m.bounce pkt dest0).1
        (m.bounce pkt dest0).2 hbpair
      cases hb : (m.bounce pkt dest0).2 with
      | error e =>
        rw [hb] at h
        injection h with h1 h2
        subst h1
        refine ⟨?_, hbdom, ?_⟩
        · intro s t hl
          obtain ⟨t2, h1', h2', hsent⟩ := hbrel s t hl
          rcases hsent with hs1 | ⟨hs1, hs2⟩
          · exact ⟨t2, h1', h2', [], by simp [hs1], by simp⟩
          · exact ⟨t2, h1', h2', [(dest0, pkt)], by simp [hs2],
              by simp⟩
        · intro msgs hr
          rw [← h2] at hr
          exact absurd hr (by simp)
      | ok u =>
        rw [hb] at h
        obtain ⟨hrel, hdom, hok⟩ := ih (m.bounce pkt dest0).1 pkt acc m2 r h
        have hbounce : m.bounce pkt dest0 = ((m.bounce pkt dest0).1, .ok u) := by
          rw [hbpair, hb]
        obtain ⟨t0, hl0, hl1⟩ := bounce_ok_sends m pkt dest0 _ u hbounce
        refine ⟨?_, ?_, ?_⟩
        · intro s t hl
          obtain ⟨tm, hm1, hm2, hmsent⟩ := hbrel s t hl
          obtain ⟨t2, h1', h2', ext, h3', h4'⟩ := hrel s tm hm1
          rcases hmsent with hs1 | ⟨hs1, hs2⟩
          · exact ⟨t2, h1', by rw [h2', hm2], ext, by rw [h3', hs1],
              fun e he => ⟨(h4' e he).1,
                List.mem_cons_of_mem _ (h4' e he).2⟩⟩
          · refine ⟨t2, h1', by rw [h2', hm2], (dest0, pkt) :: ext, ?_, ?_⟩
            · rw [h3', hs2]
              simp
            · intro e he
              rcases List.mem_cons.mp he with heq | hmem
              · subst heq
                exact ⟨rfl, by simp⟩
              · exact ⟨(h4' e hmem).1, List.mem_cons_of_mem _ (h4' e hmem).2⟩
        · intro s
          rw [hdom s, hbdom s]
        · intro msgs hr dest hdest
          rcases List.mem_cons.mp hdest with heq | hmem
          · have hd : dest = dest0 := by
              simpa using heq
            subst hd
            obtain ⟨t2, h1', h2', ext, h3', h4'⟩ :=
              hrel (schemeOf dest) _ hl1
            exact ⟨t2, h1', by rw [h3']; simp⟩
          · exact hok msgs hr dest hmem

/-- C3: during `recv`'s packet processing, every `Transport(path)` chunk of
the disassembly causes the original raw packet bytes — byte-identical, not
a re-serialization of the decrypted chunks — to be recorded as sent by the
transport selected by the path's scheme; moreover every send performed by
the call carries exactly those original bytes. -/
theorem forward_original_bytes (m : Mesher) (pkt : Bytes) (m2 : Mesher)
    (msgs : List Message) (chunks : List Chunk)
    (hp : m.process_packet pkt = (m2, .ok msgs))
    (hd : m.disassemble pkt = .ok chunks) :
    (∀ dest, Chunk.Transport dest ∈ chunks →
      ∃ t2, lookupT m2.transports (schemeOf dest) = some t2 ∧
        (dest, pkt) ∈ t2.sent) ∧
    (∀ s t, lookupT m.transports s = some t →
      ∃ t2, lookupT m2.transports s = some t2 ∧
        ∃ ext, t2.sent = t.sent ++ ext ∧
          ∀ e ∈ ext, e.2 = pkt ∧ Chunk.Transport e.1 ∈ chunks) := by
  unfold Mesher.process_packet at hp
  simp only [hd] at hp
  obtain ⟨hrel, hdom, hok⟩ := processChunks_state chunks m pkt [] m2 (.ok msgs) hp
  refine ⟨hok msgs rfl, ?_⟩
  intro s t hl
  obtain ⟨t2, h1, _, hext⟩ := hrel s t hl
  exact ⟨t2, h1, hext⟩

/-- C3 witness: a concrete node holding one transport under scheme `tcp`
receives a packet whose only chunk is a hop to `tcp:a`; after processing,
that transport's send log holds the original packet bytes. -/
theorem forward_original_bytes_witness :
    lookupT (Mesher.mk [([116, 99, 112],
        { sent := [([116, 99, 112, 58, 97],
                    bincodeSerialize [[1, 1, 116, 99, 112, 58, 97]])] })]
        [⟨1⟩] []).transports (schemeOf [116, 99, 112, 58, 97]) =
      some { sent := [([116, 99, 112, 58, 97],
                       bincodeSerialize [[1, 1, 116, 99, 112, 58, 97]])] } ∧
    ([116, 99, 112, 58, 97], bincodeSerialize [[1, 1, 116, 99, 112, 58, 97]]) ∈
      (TransportState.mk []
        [([116, 99, 112, 58, 97], bincodeSerialize [[1, 1, 116, 99, 112, 58, 97]])]
        [] none none none).sent := by
  obtain ⟨t2, h1, h2⟩ :=
    (forward_original_bytes
      (Mesher.mk [([116, 99, 112], {})] [⟨1⟩] [])
      (bincodeSerialize [[1, 1, 116, 99, 112, 58, 97]])
      (Mesher.mk [([116, 99, 112],
        { sent := [([116, 99, 112, 58, 97],
                    bincodeSerialize [[1, 1, 116, 99, 112, 58, 97]])] })] [⟨1⟩] [])
      [] [Chunk.Transport [116, 99, 112, 58, 97]]
      (by rfl) (by rfl)).1
      [116, 99, 112, 58, 97] (by simp)
  have ht : t2 = { sent := [([116, 99, 112, 58, 97],
      bincodeSerialize [[1, 1, 116, 99, 112, 58, 97]])] } := by
    have hc : lookupT (Mesher.mk [([116, 99, 112],
        { sent := [([116, 99, 112, 58, 97],
                    bincodeSerialize [[1, 1, 116, 99, 112, 58, 97]])] })]
        [⟨1⟩] []).transports (schemeOf [116, 99, 112, 58, 97]) =
        some { sent := [([116, 99, 112, 58, 97],
                         bincodeSerialize [[1, 1, 116, 99, 112, 58, 97]])] } := by rfl
    rw [hc] at h1
    exact (Option.some.inj h1).symm
  exact ⟨by rfl, by rw [← ht]; exact h2⟩

/-- C5: any failure during `recv` — a transport `receive` failure in the
drain loop, or an `InvalidPacket`/forwarding failure while processing a
packet — makes the entire call return that error: a drain failure aborts
`recv` with it, a processing failure aborts `processPackets` regardless of
the messages accumulated so far (`acc` is discarded), so no partial list
of messages is returned. -/
theorem recv_aborts_on_failure (m : Mesher) :
    (∀ m1 e, m.drainAll = (m1, .error e) → m.recv = (m1, .error e)) ∧
    (∀ m1 ps, m.drainAll = (m1, .ok ps) → m.recv = processPackets m1 ps []) ∧
    (∀ (m1 : Mesher) (p : Bytes) (rest : List Bytes) (acc : List Message)
       (m2 : Mesher) (e : MesherFail),
      m1.process_packet p = (m2, .error e) →
      processPackets m1 (p :: rest) acc = (m2, .error e)) ∧
    (∀ (s : Bytes) (t : TransportState) (rest : Registry) (str : String),
      t.recvFail = some str →
      (drainList ((s, t) :: rest)).2 = .error (.ReceiveFailure str)) := by
  refine ⟨?_, ?_, ?_, ?_⟩
  · intro m1 e h
    simp only [Mesher.recv, h]
  · intro m1 ps h
    simp only [Mesher.recv, h]
  · intro m1 p rest acc m2 e h
    simp only [processPackets, h]
  · intro s t rest str h
    simp only [drainList, TransportState.receive, h]

/-- C5 witness: a mesher whose only transport fails `receive` makes the
whole `recv` call return that `ReceiveFailure`. -/
theorem recv_aborts_on_failure_witness :
    (Mesher.mk [([116], { recvFail := some "x" })] [] []).drainAll =
      (Mesher.mk [([116], { recvFail := some "x" })] [] [],
        .error (.ReceiveFailure "x")) ∧
    (Mesher.mk [([116], { recvFail := some "x" })] [] []).recv =
      (Mesher.mk [([116], { recvFail := some "x" })] [] [],
        .error (.ReceiveFailure "x")) := by
  refine ⟨by rfl, ?_⟩
  exact (recv_aborts_on_failure _).1 _ _ (by rfl)

theorem receive_cases (t : TransportState) :
    (t.recvFail = none ∧ t.receive = ({ t with inbox := [] }, .ok t.inbox)) ∨
    (∃ str, t.recvFail = some str ∧
      t.receive = (t, .error (.ReceiveFailure str))) := by
  obtain ⟨inb, snt, lst, rf, sf, lf⟩ := t
  cases rf with
  | none => exact Or.inl ⟨rfl, rfl⟩
  | some str => exact Or.inr ⟨str, rfl, rfl⟩

theorem drainList_ok_inbox (reg : Registry) :
    ∀ (reg2 : Registry) (ps : List Bytes), drainList reg = (reg2, .ok ps) →
      ∀ s t, lookupT reg2 s = some t → t.inbox = [] := by
  induction reg with
  | nil =>
    intro reg2 ps h s t hl
    simp only [drainList] at h
    injection h with h1 h2
    subst h1
    exact absurd hl (by simp [lookupT])
  | cons p rest ih =>
    intro reg2 ps h s t hl
    obtain ⟨s0, t0⟩ := p
    simp only [drainList] at h
    rcases receive_cases t0 with ⟨hf, hrecv⟩ | ⟨str, hf, hrecv⟩
    · rw [hrecv] at h
      cases hdr : (drainList rest).2 with
      | error e =>
        rw [hdr] at h
        exact absurd (congrArg Prod.snd h) (by simp)
      | ok ps2 =>
        rw [hdr] at h
        injection h with h1 h2
        subst h1
        simp only [lookupT] at hl
        by_cases hs : s0 = s
        · rw [if_pos hs] at hl
          rw [← Option.some.inj hl]
        · rw [if_neg hs] at hl
          have hpair : drainList rest = ((drainList rest).1, .ok ps2) := by
            rw [← hdr]
          exact ih (drainList rest).1 ps2 hpair s t hl
    · rw [hrecv] at h
      cases hdr : (drainList rest).2 <;>
        exact absurd (congrArg Prod.snd h) (by simp)

theorem process_packet_state (m : Mesher) (pkt : Bytes) (m2 : Mesher)
    (r : Except MesherFail (List Message))
    (h : m.process_packet pkt = (m2, r)) :
    (∀ s t, lookupT m.transports s = some t →
      ∃ t2, lookupT m2.transports s = some t2 ∧ t2.inbox = t.inbox) ∧
    (∀ s, (lookupT m2.transports s).isSome = (lookupT m.transports s).isSome) := by
  unfold Mesher.process_packet at h
  cases hd : m.disassemble pkt with
  | error e =>
    simp only [hd] at h
    injection h with h1 h2
    subst h1
    exact ⟨fun s t hl => ⟨t, hl, rfl⟩, fun s => rfl⟩
  | ok chunks =>
    simp only [hd] at h
    obtain ⟨hrel, hdom, _⟩ := processChunks_state chunks m pkt [] m2 r h
    exact ⟨fun s t hl => by
      obtain ⟨t2, h1, h2, _⟩ := hrel s t hl
      exact ⟨t2, h1, h2⟩, hdom⟩

theorem processPackets_state (ps : List Bytes) :
    ∀ (m : Mesher) (acc : List Message) (m2 : Mesher)
      (r : Except MesherFail (List Message)),
      processPackets m ps acc = (m2, r) →
      (∀ s t, lookupT m.transports s = some t →
        ∃ t2, lookupT m2.transports s = some t2 ∧ t2.inbox = t.inbox) ∧
      (∀ s, (lookupT m2.transports s).isSome =
        (lookupT m.transports s).isSome) := by
  induction ps with
  | nil =>
    intro m acc m2 r h
    simp only [processPackets] at h
    injection h with h1 h2
    subst h1
    exact ⟨fun s t hl => ⟨t, hl, rfl⟩, fun s => rfl⟩
  | cons p rest ih =>
    intro m acc m2 r h
    simp only [processPackets] at h
    cases hp : (m.process_packet p).2 with
    | error e =>
      rw [hp] at h
      injection h with h1 h2
      subst h1
      have hpair : m.process_packet p = ((m.process_packet p).1, .error e) := by
        rw [← hp]
      exact process_packet_state m p (m.process_packet p).1 (.error e) hpair
    | ok msgs =>
      rw [hp] at h
      have hpair : m.process_packet p = ((m.process_packet p).1, .ok msgs) := by
        rw [← hp]
      obtain ⟨hrel1, hdom1⟩ :=
        process_packet_state m p (m.process_packet p).1 (.ok msgs) hpair
      obtain ⟨hrel2, hdom2⟩ := ih (m.process_packet p).1 (acc ++ msgs) m2 r h
      constructor
      · intro s t hl
        obtain ⟨t1, h1, h2⟩ := hrel1 s t hl
        obtain ⟨t2, h3, h4⟩ := hrel2 s t1 h1
        exact ⟨t2, h3, by rw [h4, h2]⟩
      · intro s
        rw [hdom2 s, hdom1 s]

/-- C10: `recv` drains the buffered packets of every registered transport
into a local list before processing any packet — after a successful drain
phase the rest of the call is exactly `processPackets` on the drained
list, every transport's inbox is already empty, and it stays empty in the
final state whether the processing phase succeeds or returns an error: the
drained packets cannot be recovered by retrying `recv`. -/
theorem recv_drains_before_processing (m m1 : Mesher) (ps : List Bytes)
    (hd : m.drainAll = (m1, .ok ps)) :
    m.recv = processPackets m1 ps [] ∧
    (∀ s t, lookupT m1.transports s = some t → t.inbox = []) ∧
    (∀ (m2 : Mesher) (r : Except MesherFail (List Message)),
      m.recv = (m2, r) →
      ∀ s t, lookupT m2.transports s = some t → t.inbox = []) := by
  have hrecv : m.recv = processPackets m1 ps [] := by
    simp only [Mesher.recv, hd]
  have hinbox : ∀ s t, lookupT m1.transports s = some t → t.inbox = [] := by
    intro s t hl
    unfold Mesher.drainAll at hd
    injection hd with h1 h2
    have hpair : drainList m.transports = ((drainList m.transports).1, .ok ps) := by
      rw [← h2]
    exact drainList_ok_inbox m.transports (drainList m.transports).1 ps hpair s t
      (by rw [← h1] at hl; exact hl)
  refine ⟨hrecv, hinbox, ?_⟩
  intro m2 r h s t hl
  rw [hrecv] at h
  obtain ⟨hrel, hdom⟩ := processPackets_state ps m1 [] m2 r h
  have hsome : (lookupT m1.transports s).isSome := by
    rw [← hdom s, hl]
    rfl
  obtain ⟨t1, hl1⟩ := Option.isSome_iff_exists.mp hsome
  obtain ⟨t2, h1, h2⟩ := hrel s t1 hl1
  rw [hl] at h1
  rw [← Option.some.inj h1] at h2
  rw [h2]
  exact hinbox s t1 hl1

/-- C10 witness: a mesher with one buffered packet of garbage framing —
the drain succeeds, processing fails with `InvalidPacket`, and the final
state's transport inbox is empty. -/
theorem recv_drains_before_processing_witness :
    (Mesher.mk [([116], { inbox := [[9]] })] [] []).recv =
      (Mesher.mk [([116], {})] [] [], .error .InvalidPacket) ∧
    ∀ t, lookupT (Mesher.mk [([116], {})] [] []).transports [116] = some t →
      t.inbox = ([] : List Bytes) := by
  have h := recv_drains_before_processing
    (Mesher.mk [([116], { inbox := [[9]] })] [] [])
    (Mesher.mk [([116], {})] [] []) [[9]] (by rfl)
  refine ⟨by rfl, ?_⟩
  intro t hl
  exact h.2.2 (Mesher.mk [([116], {})] [] []) (.error .InvalidPacket)
    (by rfl) [116] t hl

theorem decodeLen_toLE8 (n : Nat) (rest : Bytes) (h : n < 2 ^ 64) :
    decodeLen (toLE8 n ++ rest) = some (n, rest) := by
  simp only [toLE8, List.cons_append, List.nil_append, decodeLen,
    Option.some.injEq, Prod.mk.injEq]
  refine ⟨?_, trivial⟩
  omega

theorem readBlobs_encBlobs (blobs : List Bytes) :
    ∀ rest, (∀ b ∈ blobs, b.length < 2 ^ 64) →
      readBlobs blobs.length (encBlobs blobs ++ rest) = some (blobs, rest) := by
  induction blobs with
  | nil => intro rest _; rfl
  | cons b bs ih =>
    intro rest hb
    simp only [encBlobs, List.length_cons, List.append_assoc, readBlobs]
    rw [decodeLen_toLE8 b.length (b ++ (encBlobs bs ++ rest)) (hb b (by simp))]
    simp only []
    have hle : b.length ≤ (b ++ (encBlobs bs ++ rest)).length := by simp
    rw [if_pos hle, List.take_left, List.drop_left,
      ih rest (fun x hx => hb x (by simp [hx]))]

theorem bincode_roundtrip (blobs : List Bytes) (hlen : blobs.length < 2 ^ 64)
    (hb : ∀ b ∈ blobs, b.length < 2 ^ 64) :
    bincodeDeserialize (bincodeSerialize blobs) = some blobs := by
  unfold bincodeSerialize bincodeDeserialize
  rw [decodeLen_toLE8 _ _ hlen]
  simp only []
  have hr := readBlobs_encBlobs blobs [] hb
  rw [List.append_nil] at hr
  rw [hr]
  simp

theorem decrypt_encrypt (c : Chunk) (k : PublicKey) (keys : List SecretKey)
    (hk : ∃ sk ∈ keys, sk.pkey = k)
    (ht : ∀ t, c = .Transport t → validUtf8 t = true)
    (hne : ∀ v, c ≠ .Encrypted v) :
    Chunk.decrypt (c.encrypt k) keys = c := by
  induction keys with
  | nil =>
    obtain ⟨sk, hmem, _⟩ := hk
    exact absurd hmem (by simp)
  | cons k0 ks ih =>
    obtain ⟨sk, hmem, hpk⟩ := hk
    have hid : sk.id = k.id := congrArg PublicKey.id hpk
    by_cases h0 : k0.id = k.id
    · cases c with
      | Message m =>
        simp [Chunk.decrypt, Chunk.decrypt_onekey, SecretKey.decrypt,
          Chunk.encrypt, PublicKey.encrypt, h0]
      | Transport t =>
        simp [Chunk.decrypt, Chunk.decrypt_onekey, SecretKey.decrypt,
          Chunk.encrypt, PublicKey.encrypt, h0, ht t rfl]
      | Encrypted v => exact absurd rfl (hne v)
    · have hfail : Chunk.decrypt_onekey (c.encrypt k) k0 = none := by
        cases c with
        | Message m =>
          simp only [Chunk.encrypt, PublicKey.encrypt, Chunk.decrypt_onekey,
            SecretKey.decrypt]
          rw [if_neg (fun hc => h0 hc.symm)]
        | Transport t =>
          simp only [Chunk.encrypt, PublicKey.encrypt, Chunk.decrypt_onekey,
            SecretKey.decrypt]
          rw [if_neg (fun hc => h0 hc.symm)]
        | Encrypted v => exact absurd rfl (hne v)
      simp only [Chunk.decrypt, hfail]
      apply ih
      rcases List.mem_cons.mp hmem with heq | hmem2
      · exact absurd (heq ▸ hid) h0
      · exact ⟨sk, hmem2, hpk⟩

/-- C1: for every packet built from a chain of `add_message`/`add_hop`
calls (with the hop paths valid UTF-8, as the Rust `String` type
guarantees) whose target keys all have a matching secret key in the
own-key list, and whose chunk count and encrypted-chunk sizes fit the
`u64` framing, `into_bytes()` followed by `from_bytes()` with those keys
yields exactly the chunks that were added — same count, same order, same
payload bytes and same variant (`Message`/`Transport`). -/
theorem packet_roundtrip (ops : List BuildOp) (keys : List SecretKey)
    (hutf : ∀ path k, BuildOp.hop path k ∈ ops → validUtf8 path = true)
    (hkeys : ∀ op ∈ ops, ∃ sk ∈ keys, sk.pkey = opKey op)
    (hcount : ops.length < 2 ^ 64)
    (hsize : ∀ op ∈ ops, ((opChunk op).encrypt (opKey op)).length < 2 ^ 64) :
    (buildPacket ops).into_bytes =
      .ok (bincodeSerialize
        (ops.map (fun op => (opChunk op).encrypt (opKey op)))) ∧
    Packet.from_bytes
      (bincodeSerialize (ops.map (fun op => (opChunk op).encrypt (opKey op))))
      keys = .ok (ops.map opChunk) := by
  constructor
  · unfold Packet.into_bytes
    rw [buildPacket_chunks]
    simp [List.map_map]
    rfl
  · unfold Packet.from_bytes
    rw [bincode_roundtrip _ (by simpa using hcount)
      (by intro b hbm; rcases List.mem_map.mp hbm with ⟨op, hop, rfl⟩; exact hsize op hop)]
    simp only [List.map_map, Except.ok.injEq]
    apply List.map_congr_left
    intro op hop
    simp only [Function.comp_apply]
    apply decrypt_encrypt
    · exact hkeys op hop
    · intro t hc
      cases op with
      | message d k2 => exact absurd hc (by simp [opChunk])
      | hop path k2 =>
        have : path = t := by simpa [opChunk] using hc
        exact this ▸ hutf path k2 hop
    · intro v
      cases op <;> simp [opChunk]

/-- C1 witness: a two-chunk packet — a message for key 1 and a hop
`"tcp:a"` for key 2 — serializes and disassembles with the two matching
secret keys back to exactly those two chunks in order. -/
theorem packet_roundtrip_witness :
    (buildPacket [BuildOp.message [7, 8] ⟨1⟩,
        BuildOp.hop [116, 99, 112, 58, 97] ⟨2⟩]).into_bytes =
      .ok (bincodeSerialize [[1, 0, 7, 8], [2, 1, 116, 99, 112, 58, 97]]) ∧
    Packet.from_bytes (bincodeSerialize [[1, 0, 7, 8], [2, 1, 116, 99, 112, 58, 97]])
      [⟨1⟩, ⟨2⟩] =
      .ok [Chunk.Message [7, 8], Chunk.Transport [116, 99, 112, 58, 97]] := by
  have h := packet_roundtrip
    [BuildOp.message [7, 8] ⟨1⟩, BuildOp.hop [116, 99, 112, 58, 97] ⟨2⟩]
    [⟨1⟩, ⟨2⟩]
    (by
      intro path k hmem
      rcases List.mem_cons.mp hmem with heq | hmem2
      · exact absurd heq (by simp)
      · rcases List.mem_cons.mp hmem2 with heq | hmem3
        · obtain ⟨h1, h2⟩ := BuildOp.hop.inj heq
          subst h1
          decide
        · exact absurd hmem3 (by simp))
    (by
      intro op hmem
      rcases List.mem_cons.mp hmem with heq | hmem2
      · exact ⟨⟨1⟩, by simp, by rw [heq]; rfl⟩
      · rcases List.mem_cons.mp hmem2 with heq | hmem3
        · exact ⟨⟨2⟩, by simp, by rw [heq]; rfl⟩
        · exact absurd hmem3 (by simp))
    (by decide)
    (by
      intro op hmem
      rcases List.mem_cons.mp hmem with heq | hmem2
      · rw [heq]; decide
      · rcases List.mem_cons.mp hmem2 with heq | hmem3
        · rw [heq]; decide
        · exact absurd hmem3 (by simp))
  exact ⟨h.1, h.2⟩

end Mesh
